import Mathlib

/-
Verification of the axis-canonicalization and TT-compression utilities of
Mini-Qiskit_with_Tensor_Networks (src/auxiliary_functions.py).

Tensors are modelled as a shape (list of axis sizes) together with the flat
row-major (C-order) enumeration of their entries, exactly the observable
content of a dense numpy array.  numpy's `transpose` and `reshape` are
modelled on that representation; Python exceptions (invalid axes for
`np.transpose`, size mismatch for `np.reshape`, IndexError on list/shape
indexing) are modelled by `Option.none`.
-/

namespace MiniQiskit

/-- A dense numeric array: its shape and its entries in row-major order. -/
structure Tensor (α : Type) where
  shape : List Nat
  data : List α
deriving DecidableEq

/-- Well-formedness: the flat data holds exactly one entry per index tuple. -/
def Tensor.wf {α : Type} (t : Tensor α) : Prop :=
  t.data.length = t.shape.prod

/-- Row-major flat index of a multi-index `idx` in a tensor of shape `s`. -/
def flatten : List Nat → List Nat → Nat
  | _, [] => 0
  | [], _ => 0
  | _ :: srest, i :: irest => i * srest.prod + flatten srest irest

/-- Row-major multi-index of flat position `k` in a tensor of shape `s`. -/
def unflatten : List Nat → Nat → List Nat
  | [], _ => []
  | _ :: srest, k => (k / srest.prod) :: unflatten srest (k % srest.prod)

/-- Entry of a tensor at a multi-index (row-major lookup). -/
def Tensor.get {α : Type} [Inhabited α] (t : Tensor α) (idx : List Nat) : α :=
  t.data.getD (flatten t.shape idx) default

/-- `axes` is a valid axis argument for `np.transpose` on a rank-`n` array:
a permutation of `0, …, n-1`. -/
def isPerm (axes : List Nat) (n : Nat) : Bool :=
  (axes.length == n) && (List.range n).all (fun i => axes.contains i)

/-- Model of `np.transpose(t, axes)`: axis `axes[k]` of the input becomes
axis `k` of the output, so the output entry at multi-index `idx` is the
input entry at the multi-index `old` with `old[axes[k]] = idx[k]`.
Invalid `axes` raise (`none`). -/
def npTranspose {α : Type} [Inhabited α] (t : Tensor α) (axes : List Nat) :
    Option (Tensor α) :=
  if isPerm axes t.shape.length then
    let newShape := axes.map (fun p => t.shape.getD p 0)
    some ⟨newShape,
      (List.range newShape.prod).map (fun k =>
        t.data.getD
          (flatten t.shape
            ((List.range t.shape.length).map (fun m =>
              (unflatten newShape k).getD (axes.indexOf m) 0)))
          default)⟩
  else none

/-- Model of `np.reshape(t, newShape)`: same row-major data, new shape;
raises (`none`) when the element counts disagree. -/
def npReshape {α : Type} (t : Tensor α) (newShape : List Nat) :
    Option (Tensor α) :=
  if newShape.prod = t.shape.prod then some ⟨newShape, t.data⟩ else none

/-- Helper for `lastIdxOf`: fold keeping the index of the last occurrence. -/
def lastIdxFrom (l : List String) (s : String) (base : Nat) (acc : Nat) : Nat :=
  match l with
  | [] => acc
  | x :: xs => lastIdxFrom xs s (base + 1) (if x = s then base else acc)

/-- Position assigned to label `s` by the Python dict comprehension
`{name: i for i, name in enumerate(bond_axes)}` (the last occurrence wins). -/
def lastIdxOf (l : List String) (s : String) : Nat :=
  lastIdxFrom l s 0 0

/-- The recognized bond-label vocabulary, in the canonical grouping order
used by `process_axes` (`up1`, `up2`, `down1`, `down2`). -/
def canonLabels : List String := ["up1", "up2", "down1", "down2"]

/-- The `target_order` list built by `process_axes`: position 0 for the
out axis (if present), then the axis position of each present label in
canonical order, offset by the out axis. -/
def mkTargetOrder (bond_axes : List String) (has_out : Bool) : List Nat :=
  let out_offset := if has_out then 1 else 0
  (if has_out then [0] else []) ++
    (canonLabels.filter (fun l => bond_axes.contains l)).map
      (fun l => lastIdxOf bond_axes l + out_offset)

/-- The transpose step of `process_axes`: permute the axes to
`target_order` unless that is already the current order. -/
def permutedTensor {α : Type} [Inhabited α] (t : Tensor α)
    (bond_axes : List String) (has_out : Bool) : Option (Tensor α) :=
  let tord := mkTargetOrder bond_axes has_out
  if tord ≠ List.range t.shape.length then npTranspose t tord else some t

/-- Core of the `new_shape` computation of `process_axes`, taking the
label-presence booleans explicitly: out size kept, the up pair (resp.
down pair) merged into the product of their sizes when both are present.
Out-of-range shape indexing raises (`none`). -/
def mkNewShapeB (shape1 : List Nat)
    (has_out has_up1 has_up2 has_down1 has_down2 : Bool) :
    Option (List Nat) :=
  let out_offset := if has_out then 1 else 0
  do
    let outPart ← if has_out then (shape1.get? 0).map (fun s => [s]) else some []
    let upPart ←
      if has_up1 || has_up2 then
        if has_up1 && has_up2 then do
          let a ← shape1.get? out_offset
          let b ← shape1.get? (out_offset + 1)
          pure [a * b]
        else (shape1.get? out_offset).map (fun s => [s])
      else some []
    let downPart ←
      if has_down1 || has_down2 then
        let down_idx := out_offset + (if has_up1 then 1 else 0) +
          (if has_up2 then 1 else 0)
        if has_down1 && has_down2 then do
          let a ← shape1.get? down_idx
          let b ← shape1.get? (down_idx + 1)
          pure [a * b]
        else (shape1.get? down_idx).map (fun s => [s])
      else some []
    pure (outPart ++ upPart ++ downPart)

/-- The `new_shape` list built by `process_axes`: the presence booleans
are read off `bond_axes` exactly as in the source. -/
def mkNewShape (shape1 : List Nat) (bond_axes : List String)
    (has_out : Bool) : Option (List Nat) :=
  mkNewShapeB shape1 has_out (bond_axes.contains "up1")
    (bond_axes.contains "up2") (bond_axes.contains "down1")
    (bond_axes.contains "down2")

/-- Core of the `final_axes` computation, on the presence booleans. -/
def mkFinalAxesB (has_out has_up1 has_up2 has_down1 has_down2 : Bool) :
    List String :=
  (if has_out then ["out"] else []) ++
    (if has_up1 || has_up2 then ["up"] else []) ++
    (if has_down1 || has_down2 then ["down"] else [])

/-- The `final_axes` list built by `process_axes`. -/
def mkFinalAxes (bond_axes : List String) (has_out : Bool) : List String :=
  mkFinalAxesB has_out (bond_axes.contains "up1") (bond_axes.contains "up2")
    (bond_axes.contains "down1") (bond_axes.contains "down2")

/-- Model of `process_axes(tensor, bond_axes, has_out)`: transpose to the
target order (when needed), reshape to the grouped shape, and return the
tensor with its final axis names.  `none` models a Python exception. -/
def process_axes {α : Type} [Inhabited α] (t : Tensor α)
    (bond_axes : List String) (has_out : Bool) :
    Option (Tensor α × List String) := do
  let t1 ← permutedTensor t bond_axes has_out
  let ns ← mkNewShape t1.shape bond_axes has_out
  let t2 ← npReshape t1 ns
  pure (t2, mkFinalAxes bond_axes has_out)

/-- Variant of `process_axes` that always applies the transpose of step 1,
even when the target order equals the current order. -/
def process_axes_always {α : Type} [Inhabited α] (t : Tensor α)
    (bond_axes : List String) (has_out : Bool) :
    Option (Tensor α × List String) := do
  let t1 ← npTranspose t (mkTargetOrder bond_axes has_out)
  let ns ← mkNewShape t1.shape bond_axes has_out
  let t2 ← npReshape t1 ns
  pure (t2, mkFinalAxes bond_axes has_out)

/-- The preconditions of `process_axes`: distinct labels drawn from the
recognized vocabulary, one label per non-out axis. -/
def validInput {α : Type} (t : Tensor α) (bond_axes : List String)
    (has_out : Bool) : Prop :=
  bond_axes.Nodup ∧ (∀ x ∈ bond_axes, x ∈ canonLabels) ∧
    bond_axes.length + (if has_out then 1 else 0) = t.shape.length

/-
Store-level model, for the frame property of `process_axes`.  A store is
the list of array objects alive in the Python process; numpy's
`transpose` and `reshape` allocate a fresh array object (or view) and
never write into an existing one, so their store-level liftings look an
array up, append the result, and return its index.
-/

/-- Store-level `np.transpose`: read cell `i`, append the transposed
array as a new cell, return its index. -/
def npTransposeAt {α : Type} [Inhabited α] (σ : List (Tensor α)) (i : Nat)
    (axes : List Nat) : List (Tensor α) × Option Nat :=
  match σ.get? i with
  | none => (σ, none)
  | some t =>
    match npTranspose t axes with
    | none => (σ, none)
    | some t1 => (σ ++ [t1], some σ.length)

/-- Store-level `np.reshape`: read cell `i`, append the reshaped array
as a new cell, return its index. -/
def npReshapeAt {α : Type} (σ : List (Tensor α)) (i : Nat)
    (newShape : List Nat) : List (Tensor α) × Option Nat :=
  match σ.get? i with
  | none => (σ, none)
  | some t =>
    match npReshape t newShape with
    | none => (σ, none)
    | some t1 => (σ ++ [t1], some σ.length)

/-- Store-level `process_axes` on the array in cell `i`: the same steps
as `process_axes`, with the local variable `tensor` rebound to the index
of each intermediate array.  Returns the final store together with the
index of the result array and the final axis names (`none` models an
exception). -/
def process_axes_at {α : Type} [Inhabited α] (σ : List (Tensor α)) (i : Nat)
    (bond_axes : List String) (has_out : Bool) :
    List (Tensor α) × Option (Nat × List String) :=
  match σ.get? i with
  | none => (σ, none)
  | some t =>
    let tord := mkTargetOrder bond_axes has_out
    let step1 :=
      if tord ≠ List.range t.shape.length then npTransposeAt σ i tord
      else (σ, some i)
    match step1 with
    | (σ1, none) => (σ1, none)
    | (σ1, some j) =>
      match σ1.get? j with
      | none => (σ1, none)
      | some t1 =>
        match mkNewShape t1.shape bond_axes has_out with
        | none => (σ1, none)
        | some ns =>
          match npReshapeAt σ1 j ns with
          | (σ2, none) => (σ2, none)
          | (σ2, some k) => (σ2, some (k, mkFinalAxes bond_axes has_out))

/-
Model of `TT_State_Compression`.  The external decomposition routine
(`tntorch.Tensor` + `round_tt` + `.cores`) is an external collaborator,
modelled as an abstract function from the converted chain and the
tolerance to a list of core arrays.
-/

/-- Numeric dtypes relevant to the dtype-promotion contract. -/
inductive Dtype
  | int32 | int64 | float32 | float64 | complex64 | complex128
deriving DecidableEq

/-- A dense array as handed across the library boundary: a dtype tag,
a shape, and the flat entries (their numeric values abstracted). -/
structure NDArray (γ : Type) where
  dtype : Dtype
  shape : List Nat
  data : List γ
deriving DecidableEq

/-- A `tensornetwork.Node`: an array plus name and axis-name metadata. -/
structure TNode (γ : Type) where
  tensor : NDArray γ
  name : String
  axisNames : List String
deriving DecidableEq

/-- Model of `torch.tensor(x, dtype=torch.complex128)`: the values are
kept and the array is tagged double-precision complex. -/
def torchTensorComplex128 {γ : Type} (a : NDArray γ) : NDArray γ :=
  { a with dtype := Dtype.complex128 }

/-- The chain handed to the external decomposition routine: every node
tensor promoted to complex128 (line `torch.tensor(node.tensor,
dtype=torch.complex128)` applied to the whole list). -/
def compressionInput {γ : Type} (TN_State : List (TNode γ)) : List (NDArray γ) :=
  TN_State.map (fun node => torchTensorComplex128 node.tensor)

/-- The reconstruction loop `for i, core in enumerate(TT_Compressed.cores)`:
wrap core `i` in a node carrying the name and axis names of `TN_State[i]`.
Indexing past the end of `TN_State` raises IndexError (`none`). -/
def rebuildCores {γ : Type} (TN_State : List (TNode γ)) :
    List (NDArray γ) → Nat → Option (List (TNode γ))
  | [], _ => some []
  | core :: rest, i =>
    match TN_State.get? i with
    | none => none
    | some node =>
      (rebuildCores TN_State rest (i + 1)).map
        (fun tail => ⟨core, node.name, node.axisNames⟩ :: tail)

/-- Model of `TT_State_Compression(TN_State, eps)`, parametrized by the
external decomposition routine `svc` (chain in, tolerance in, cores out). -/
def TT_State_Compression {γ : Type}
    (svc : List (NDArray γ) → ℚ → List (NDArray γ))
    (TN_State : List (TNode γ)) (eps : ℚ) : Option (List (TNode γ)) :=
  rebuildCores TN_State (svc (compressionInput TN_State) eps) 0

/-
Concrete sample inputs used by the witness theorems.
-/

/-- A concrete rank-4 tensor of shape (2,3,4,5). -/
def sampleT : Tensor Nat := ⟨[2, 3, 4, 5], List.range 120⟩

/-- A concrete rank-3 tensor of shape (2,3,4). -/
def sample3 : Tensor Nat := ⟨[2, 3, 4], List.range 24⟩

/-- A concrete rank-2 tensor of shape (2,2). -/
def sample2 : Tensor Nat := ⟨[2, 2], [0, 1, 2, 3]⟩

/-- The rank-1 tensor on which an unrecognized label slips through. -/
def badT : Tensor Nat := ⟨[5], [10, 11, 12, 13, 14]⟩

/-- A concrete one-node chain. -/
def sampleNode : TNode Unit :=
  ⟨⟨Dtype.float32, [1], [()]⟩, "core0", ["out"]⟩

/-- A decomposition routine returning no cores at all. -/
def emptySvc {γ : Type} : List (NDArray γ) → ℚ → List (NDArray γ) :=
  fun _ _ => []

/-
Helper lemmas about lists, flat indices and the pieces of the model.
-/

theorem map_getD_range {α : Type} (l : List α) (d : α) :
    (List.range l.length).map (fun i => l.getD i d) = l := by
  induction l with
  | nil => rfl
  | cons a tl ih =>
    rw [List.length_cons, List.range_succ_eq_map, List.map_cons, List.map_map]
    show a :: (List.range tl.length).map (fun i => tl.getD i d) = a :: tl
    rw [ih]

theorem unflatten_length (s : List Nat) (k : Nat) :
    (unflatten s k).length = s.length := by
  induction s generalizing k with
  | nil => rfl
  | cons a srest ih => simp [unflatten, ih]

theorem flatten_unflatten (s : List Nat) (k : Nat) (hk : k < s.prod) :
    flatten s (unflatten s k) = k := by
  induction s generalizing k with
  | nil =>
    simp only [List.prod_nil, Nat.lt_one_iff] at hk
    subst hk
    rfl
  | cons a srest ih =>
    have hpos : 0 < srest.prod := by
      rcases Nat.eq_zero_or_pos srest.prod with h0 | h
      · rw [List.prod_cons, h0, Nat.mul_zero] at hk; omega
      · exact h
    show k / srest.prod * srest.prod +
        flatten srest (unflatten srest (k % srest.prod)) = k
    rw [ih _ (Nat.mod_lt _ hpos), Nat.mul_comm, Nat.div_add_mod]

theorem indexOf_cons_self_beq {α : Type} [BEq α] [LawfulBEq α] (a : α)
    (l : List α) : (a :: l).indexOf a = 0 := by
  show List.findIdx (fun y => y == a) (a :: l) = 0
  rw [List.findIdx_cons]
  simp

theorem indexOf_cons_ne_beq {α : Type} [BEq α] [LawfulBEq α] {a b : α}
    (l : List α) (h : b ≠ a) : (b :: l).indexOf a = l.indexOf a + 1 := by
  show List.findIdx (fun y => y == a) (b :: l) =
    List.findIdx (fun y => y == a) l + 1
  rw [List.findIdx_cons]
  have hb : (b == a) = false := beq_eq_false_iff_ne.mpr h
  rw [hb]
  rfl

theorem indexOf_map_succ (l : List Nat) (a : Nat) :
    (l.map Nat.succ).indexOf (a + 1) = l.indexOf a := by
  induction l with
  | nil => rfl
  | cons x xs ih =>
    show List.findIdx (fun y => y == a + 1) (Nat.succ x :: xs.map Nat.succ) =
      List.findIdx (fun y => y == a) (x :: xs)
    rw [List.findIdx_cons, List.findIdx_cons]
    have hbeq : (Nat.succ x == a + 1) = (x == a) := by
      cases h : x == a
      · simp only [beq_eq_false_iff_ne, ne_eq, Nat.succ_eq_add_one] at h ⊢
        omega
      · simp only [beq_iff_eq] at h
        subst h
        simp
    rw [hbeq]
    cases hxa : x == a
    · simp only [cond_false]
      exact congrArg (fun n => n + 1) ih
    · rfl

theorem indexOf_range {n m : Nat} (h : m < n) :
    (List.range n).indexOf m = m := by
  induction n generalizing m with
  | zero => omega
  | succ n ih =>
    rw [List.range_succ_eq_map]
    cases m with
    | zero => exact indexOf_cons_self_beq 0 _
    | succ m =>
      rw [indexOf_cons_ne_beq _ (by omega : (0 : Nat) ≠ m + 1)]
      rw [indexOf_map_succ, ih (by omega)]

theorem lastIdxFrom_of_not_mem (l : List String) (s : String) (h : s ∉ l)
    (base acc : Nat) : lastIdxFrom l s base acc = acc := by
  induction l generalizing base acc with
  | nil => rfl
  | cons x xs ih =>
    have hx : ¬x = s := fun hxs => h (hxs ▸ List.mem_cons_self x xs)
    show lastIdxFrom xs s (base + 1) (if x = s then base else acc) = acc
    rw [if_neg hx]
    exact ih (fun hs => h (List.mem_cons_of_mem x hs)) _ _

theorem lastIdxFrom_eq (l : List String) (s : String) (h : s ∈ l)
    (hnd : l.Nodup) (base acc : Nat) :
    lastIdxFrom l s base acc = base + l.indexOf s := by
  induction l generalizing base acc with
  | nil => cases h
  | cons x xs ih =>
    rcases List.nodup_cons.mp hnd with ⟨hx, hxs⟩
    show lastIdxFrom xs s (base + 1) (if x = s then base else acc) =
      base + (x :: xs).indexOf s
    by_cases hxeq : x = s
    · subst hxeq
      rw [if_pos rfl, lastIdxFrom_of_not_mem xs x hx,
        indexOf_cons_self_beq, Nat.add_zero]
    · have hs : s ∈ xs := by
        rcases List.mem_cons.mp h with h1 | h1
        · exact absurd h1.symm hxeq
        · exact h1
      rw [if_neg hxeq, ih hs hxs, indexOf_cons_ne_beq _ hxeq]
      omega

theorem lastIdxOf_eq_indexOf (l : List String) (s : String) (h : s ∈ l)
    (hnd : l.Nodup) : lastIdxOf l s = l.indexOf s := by
  have h0 := lastIdxFrom_eq l s h hnd 0 0
  simpa [lastIdxOf] using h0

theorem map_indexOf_nodup {α : Type} [BEq α] [LawfulBEq α] (l : List α)
    (hnd : l.Nodup) : l.map (fun x => l.indexOf x) = List.range l.length := by
  induction l with
  | nil => rfl
  | cons a tl ih =>
    rcases List.nodup_cons.mp hnd with ⟨ha, htl⟩
    rw [List.length_cons, List.range_succ_eq_map, List.map_cons,
      indexOf_cons_self_beq]
    congr 1
    calc tl.map (fun x => (a :: tl).indexOf x)
        = tl.map (fun x => tl.indexOf x + 1) := by
          apply List.map_congr_left
          intro x hx
          exact indexOf_cons_ne_beq _ (fun h => ha (h ▸ hx))
      _ = (tl.map (fun x => tl.indexOf x)).map Nat.succ := by
          rw [List.map_map]; rfl
      _ = (List.range tl.length).map Nat.succ := by rw [ih htl]

theorem list_length_eq_four {α : Type} {l : List α} (h : l.length = 4) :
    ∃ a b c d, l = [a, b, c, d] := by
  obtain ⟨a, tl, rfl⟩ : ∃ a tl, l = a :: tl := by
    cases l with
    | nil => simp at h
    | cons a tl => exact ⟨a, tl, rfl⟩
  obtain ⟨b, c, d, rfl⟩ := List.length_eq_three.mp (by simpa using h)
  exact ⟨a, b, c, d, rfl⟩

theorem list_length_eq_five {α : Type} {l : List α} (h : l.length = 5) :
    ∃ a b c d e, l = [a, b, c, d, e] := by
  obtain ⟨a, tl, rfl⟩ : ∃ a tl, l = a :: tl := by
    cases l with
    | nil => simp at h
    | cons a tl => exact ⟨a, tl, rfl⟩
  obtain ⟨b, c, d, e, rfl⟩ := list_length_eq_four (by simpa using h)
  exact ⟨a, b, c, d, e, rfl⟩

theorem npReshape_of_prod {α : Type} (t : Tensor α) (ns : List Nat)
    (h : ns.prod = t.shape.prod) : npReshape t ns = some ⟨ns, t.data⟩ := by
  simp [npReshape, h]

theorem npTranspose_isPerm {α : Type} [Inhabited α] (t : Tensor α)
    (axes : List Nat) (hip : isPerm axes t.shape.length = true) :
    npTranspose t axes = some ⟨axes.map (fun p => t.shape.getD p 0),
      (List.range (axes.map (fun p => t.shape.getD p 0)).prod).map (fun k =>
        t.data.getD (flatten t.shape ((List.range t.shape.length).map (fun m =>
          (unflatten (axes.map (fun p => t.shape.getD p 0)) k).getD
            (axes.indexOf m) 0))) default)⟩ := by
  unfold npTranspose
  rw [if_pos hip]

theorem isPerm_of_perm {axes : List Nat} {n : Nat}
    (h : axes.Perm (List.range n)) : isPerm axes n = true := by
  unfold isPerm
  rw [Bool.and_eq_true]
  constructor
  · rw [beq_iff_eq, h.length_eq, List.length_range]
  · rw [List.all_eq_true]
    intro i hi
    have : i ∈ axes := h.mem_iff.mpr hi
    show List.elem i axes = true
    rw [List.elem_eq_mem]
    exact decide_eq_true this

theorem npTranspose_id {α : Type} [Inhabited α] (t : Tensor α) (hwf : t.wf) :
    npTranspose t (List.range t.shape.length) = some t := by
  obtain ⟨shape, data⟩ := t
  have hwf : data.length = shape.prod := hwf
  have hip : isPerm (List.range shape.length) shape.length = true :=
    isPerm_of_perm (List.Perm.refl _)
  rw [npTranspose_isPerm _ _ hip]
  refine congrArg some ?_
  have hshape : (List.range shape.length).map
      (fun p => shape.getD p 0) = shape := map_getD_range shape 0
  simp only [hshape]
  refine congrArg (Tensor.mk shape) ?_
  have hdata : ∀ k ∈ List.range shape.prod,
      data.getD (flatten shape ((List.range shape.length).map (fun m =>
        (unflatten shape k).getD ((List.range shape.length).indexOf m) 0)))
        default = data.getD k default := by
    intro k hk
    rw [List.mem_range] at hk
    have h2 : ∀ m ∈ List.range shape.length,
        (unflatten shape k).getD ((List.range shape.length).indexOf m) 0 =
        (unflatten shape k).getD m 0 := by
      intro m hm
      rw [indexOf_range (List.mem_range.mp hm)]
    rw [List.map_congr_left h2]
    have h3 : (List.range shape.length).map
        (fun m => (unflatten shape k).getD m 0) = unflatten shape k := by
      rw [← unflatten_length shape k]
      exact map_getD_range _ 0
    rw [h3, flatten_unflatten shape k hk]
  rw [List.map_congr_left hdata, ← hwf, map_getD_range data default]

theorem filter_canon_perm (b : List String) (hnd : b.Nodup)
    (hv : ∀ x ∈ b, x ∈ canonLabels) :
    (canonLabels.filter (fun l => b.contains l)).Perm b := by
  apply (List.perm_ext_iff_of_nodup (List.Nodup.filter _ (by decide)) hnd).mpr
  intro a
  simp only [List.mem_filter, List.contains, List.elem_eq_mem,
    decide_eq_true_eq]
  exact ⟨fun hx => hx.2, fun hx => ⟨hv a hx, hx⟩⟩

theorem filter_canon_length (b : List String) :
    (canonLabels.filter (fun l => b.contains l)).length =
      (if b.contains "up1" then 1 else 0) +
      (if b.contains "up2" then 1 else 0) +
      (if b.contains "down1" then 1 else 0) +
      (if b.contains "down2" then 1 else 0) := by
  by_cases h1 : "up1" ∈ b <;> by_cases h2 : "up2" ∈ b <;>
    by_cases h3 : "down1" ∈ b <;> by_cases h4 : "down2" ∈ b <;>
      simp [canonLabels, List.filter_cons, List.contains, h1, h2, h3, h4]

theorem mkTargetOrder_perm (b : List String) (h : Bool) (hnd : b.Nodup)
    (hv : ∀ x ∈ b, x ∈ canonLabels) :
    (mkTargetOrder b h).Perm
      (List.range (b.length + if h then 1 else 0)) := by
  have hfilter := filter_canon_perm b hnd hv
  have hperm : ∀ off : Nat,
      ((canonLabels.filter (fun l => b.contains l)).map
        (fun l => lastIdxOf b l + off)).Perm
      ((List.range b.length).map (fun i => i + off)) := by
    intro off
    have hcongr : (canonLabels.filter (fun l => b.contains l)).map
        (fun l => lastIdxOf b l + off) =
        (canonLabels.filter (fun l => b.contains l)).map
        (fun l => b.indexOf l + off) := by
      apply List.map_congr_left
      intro x hx
      rw [lastIdxOf_eq_indexOf b x (hfilter.mem_iff.mp hx) hnd]
    rw [hcongr]
    have h1 : b.map (fun l => b.indexOf l + off) =
        (List.range b.length).map (fun i => i + off) := by
      have h2 : b.map (fun l => b.indexOf l + off) =
          (b.map (fun x => b.indexOf x)).map (fun i => i + off) := by
        rw [List.map_map]
        rfl
      rw [h2, map_indexOf_nodup b hnd]
    exact h1 ▸ hfilter.map (fun l => b.indexOf l + off)
  cases h with
  | false =>
    have hp := hperm 0
    have hr : (List.range b.length).map (fun i => i + 0) =
        List.range b.length := by simp
    rw [hr] at hp
    have hmk : mkTargetOrder b false =
        (canonLabels.filter (fun l => b.contains l)).map
          (fun l => lastIdxOf b l + 0) := by
      simp [mkTargetOrder]
    have hn : (b.length + if false then (1 : Nat) else 0) = b.length := by
      simp
    rw [hmk, hn]
    exact hp
  | true =>
    have hp := hperm 1
    have hmk : mkTargetOrder b true =
        0 :: (canonLabels.filter (fun l => b.contains l)).map
          (fun l => lastIdxOf b l + 1) := by
      simp [mkTargetOrder]
    have hn : (b.length + if true then (1 : Nat) else 0) = b.length + 1 := by
      simp
    rw [hmk, hn, List.range_succ_eq_map]
    refine List.Perm.cons 0 ?_
    have hs : (List.range b.length).map Nat.succ =
        (List.range b.length).map (fun i => i + 1) := by
      apply List.map_congr_left
      intro i _
      rfl
    rw [hs]
    exact hp

theorem permutedTensor_spec {α : Type} [Inhabited α] (t : Tensor α)
    (b : List String) (h : Bool)
    (hperm : (mkTargetOrder b h).Perm (List.range t.shape.length)) :
    ∃ t1, permutedTensor t b h = some t1 ∧
      t1.shape = (mkTargetOrder b h).map (fun p => t.shape.getD p 0) ∧
      t1.shape.prod = t.shape.prod ∧
      t1.shape.length = t.shape.length := by
  have hprodmap : ((mkTargetOrder b h).map
      (fun p => t.shape.getD p 0)).prod = t.shape.prod := by
    have h1 : ((mkTargetOrder b h).map (fun p => t.shape.getD p 0)).prod =
        ((List.range t.shape.length).map (fun p => t.shape.getD p 0)).prod :=
      (hperm.map _).prod_eq
    rw [h1, map_getD_range]
  by_cases heq : mkTargetOrder b h = List.range t.shape.length
  · refine ⟨t, ?_, ?_, rfl, rfl⟩
    · show (if mkTargetOrder b h ≠ List.range t.shape.length
        then npTranspose t (mkTargetOrder b h) else some t) = some t
      rw [if_neg (not_not_intro heq)]
    · rw [heq, map_getD_range]
  · have hip : isPerm (mkTargetOrder b h) t.shape.length = true :=
      isPerm_of_perm hperm
    refine ⟨⟨(mkTargetOrder b h).map (fun p => t.shape.getD p 0),
      (List.range ((mkTargetOrder b h).map
        (fun p => t.shape.getD p 0)).prod).map (fun k =>
          t.data.getD (flatten t.shape ((List.range t.shape.length).map
            (fun m => (unflatten ((mkTargetOrder b h).map
              (fun p => t.shape.getD p 0)) k).getD
                ((mkTargetOrder b h).indexOf m) 0))) default)⟩,
      ?_, rfl, hprodmap, ?_⟩
    · show (if mkTargetOrder b h ≠ List.range t.shape.length
        then npTranspose t (mkTargetOrder b h) else some t) = _
      rw [if_pos heq]
      exact npTranspose_isPerm t _ hip
    · show ((mkTargetOrder b h).map (fun p => t.shape.getD p 0)).length =
        t.shape.length
      rw [List.length_map, hperm.length_eq, List.length_range]

set_option linter.unnecessarySeqFocus false in
theorem mkNewShape_spec (s1 : List Nat) (b : List String) (h : Bool)
    (hlen : s1.length = ((if b.contains "up1" then 1 else 0) +
      (if b.contains "up2" then 1 else 0) +
      (if b.contains "down1" then 1 else 0) +
      (if b.contains "down2" then 1 else 0)) + (if h then 1 else 0)) :
    ∃ ns, mkNewShape s1 b h = some ns ∧ ns.prod = s1.prod ∧
      ns.length = (mkFinalAxes b h).length := by
  rcases s1 with _ | ⟨a, _ | ⟨c, _ | ⟨d, _ | ⟨e, _ | ⟨f, _ | ⟨g, rest⟩⟩⟩⟩⟩⟩ <;>
  cases h <;>
  cases hu1 : b.contains "up1" <;> cases hu2 : b.contains "up2" <;>
  cases hd1 : b.contains "down1" <;> cases hd2 : b.contains "down2" <;>
  simp only [hu1, hu2, hd1, hd2] at hlen <;>
  simp at hlen <;>
  first
    | omega
    | (simp only [mkNewShape, hu1, hu2, hd1, hd2]
       exact ⟨_, rfl,
         by simp only [List.prod_append, List.prod_cons, List.prod_nil] <;> ring,
         by simp only [mkFinalAxes, hu1, hu2, hd1, hd2] <;> rfl⟩)

theorem mkFinalAxes_eq_spec (b : List String) (h : Bool) :
    mkFinalAxes b h = (if h then ["out"] else []) ++
      (if "up1" ∈ b ∨ "up2" ∈ b then ["up"] else []) ++
      (if "down1" ∈ b ∨ "down2" ∈ b then ["down"] else []) := by
  by_cases h1 : "up1" ∈ b <;> by_cases h2 : "up2" ∈ b <;>
    by_cases h3 : "down1" ∈ b <;> by_cases h4 : "down2" ∈ b <;>
      simp [mkFinalAxes, mkFinalAxesB, List.contains, h1, h2, h3, h4]

theorem process_axes_spec {α : Type} [Inhabited α] (t : Tensor α)
    (b : List String) (h : Bool) (hnd : b.Nodup)
    (hv : ∀ x ∈ b, x ∈ canonLabels)
    (hlen : b.length + (if h then 1 else 0) = t.shape.length) :
    ∃ t2, process_axes t b h = some (t2, mkFinalAxes b h) ∧
      t2.shape.prod = t.shape.prod ∧
      t2.shape.length = (mkFinalAxes b h).length := by
  have hperm : (mkTargetOrder b h).Perm (List.range t.shape.length) := by
    have hp := mkTargetOrder_perm b h hnd hv
    rwa [hlen] at hp
  obtain ⟨t1, ht1, hsh, hprod, hlen1⟩ := permutedTensor_spec t b h hperm
  have hcnt : t1.shape.length = ((if b.contains "up1" then 1 else 0) +
      (if b.contains "up2" then 1 else 0) +
      (if b.contains "down1" then 1 else 0) +
      (if b.contains "down2" then 1 else 0)) + (if h then 1 else 0) := by
    rw [hlen1, ← hlen]
    have hb : b.length = (canonLabels.filter (fun l => b.contains l)).length :=
      (filter_canon_perm b hnd hv).length_eq.symm
    rw [hb, filter_canon_length]
  obtain ⟨ns, hns, hnsprod, hnslen⟩ := mkNewShape_spec t1.shape b h hcnt
  have hre : npReshape t1 ns = some ⟨ns, t1.data⟩ :=
    npReshape_of_prod t1 ns (by rw [hnsprod])
  refine ⟨⟨ns, t1.data⟩, ?_, ?_, ?_⟩
  · simp [process_axes, ht1, hns, hre]
  · exact hnsprod.trans hprod
  · exact hnslen

/-
Claim theorems.
-/

/-- C1: for every rank-4 tensor of shape (2,3,4,5), `process_axes` with
labels `['up1','up2','down1']` and `has_out = true` returns the tensor
reshaped to (2,12,5) with axis names `['out','up','down']`, and the
merged axis is the row-major merge of up1 and up2 (up1 varying slower):
`output[o,i,d] = input[o, i/4, i%4, d]` for all valid indices. -/
theorem C1_merge_correctness {α : Type} [Inhabited α] (t : Tensor α)
    (hsh : t.shape = [2, 3, 4, 5]) :
    process_axes t ["up1", "up2", "down1"] true =
      some (⟨[2, 12, 5], t.data⟩, ["out", "up", "down"]) ∧
    ∀ o i d : Nat, o < 2 → i < 12 → d < 5 →
      Tensor.get ⟨[2, 12, 5], t.data⟩ [o, i, d] =
        t.get [o, i / 4, i % 4, d] := by
  obtain ⟨shape, data⟩ := t
  simp only at hsh
  subst hsh
  constructor
  · rfl
  · intro o i d ho hi hd
    show data.getD (flatten [2, 12, 5] [o, i, d]) default =
      data.getD (flatten [2, 3, 4, 5] [o, i / 4, i % 4, d]) default
    have hidx : flatten [2, 12, 5] [o, i, d] =
        flatten [2, 3, 4, 5] [o, i / 4, i % 4, d] := by
      simp [flatten]
      omega
    rw [hidx]

/-- Witness for C1 at the concrete tensor `sampleT`. -/
theorem C1_merge_correctness_witness :
    sampleT.shape = [2, 3, 4, 5] ∧
    (process_axes sampleT ["up1", "up2", "down1"] true =
      some (⟨[2, 12, 5], sampleT.data⟩, ["out", "up", "down"]) ∧
    ∀ o i d : Nat, o < 2 → i < 12 → d < 5 →
      Tensor.get ⟨[2, 12, 5], sampleT.data⟩ [o, i, d] =
        sampleT.get [o, i / 4, i % 4, d]) :=
  ⟨rfl, C1_merge_correctness sampleT rfl⟩

/-- C2 (code evaluation): `process_axes` never raises an
`InvalidAxisLabel`; on a rank-1 tensor with labels `['up1','side1']` it
silently ignores the unrecognized label and returns the tensor with axis
names `['up']`, and on a rank-2 tensor with the same labels it fails via
the generic transpose axis-count error, not a label-validation error. -/
theorem C2_unrecognized_label_eval :
    process_axes badT ["up1", "side1"] false =
      some (⟨[5], [10, 11, 12, 13, 14]⟩, ["up"]) ∧
    process_axes (⟨[2, 3], [0, 1, 2, 3, 4, 5]⟩ : Tensor Nat)
      ["up1", "side1"] false = none :=
  ⟨rfl, rfl⟩

/-- C3: on every valid input, the axis-name list returned by
`process_axes` is `['out']` (if `has_out`) then `['up']` (if any up
label is present) then `['down']` (if any down label is present), and
the rank of the returned tensor is the length of that list, i.e. the
number of groups present. -/
theorem C3_final_axes {α : Type} [Inhabited α] (t : Tensor α)
    (b : List String) (h : Bool) (hnd : b.Nodup)
    (hv : ∀ x ∈ b, x ∈ canonLabels)
    (hlen : b.length + (if h then 1 else 0) = t.shape.length) :
    ∃ t2, process_axes t b h = some (t2,
      (if h then ["out"] else []) ++
      (if "up1" ∈ b ∨ "up2" ∈ b then ["up"] else []) ++
      (if "down1" ∈ b ∨ "down2" ∈ b then ["down"] else [])) ∧
      t2.shape.length = (if h then 1 else 0) +
        (if "up1" ∈ b ∨ "up2" ∈ b then 1 else 0) +
        (if "down1" ∈ b ∨ "down2" ∈ b then 1 else 0) := by
  obtain ⟨t2, heq, _, hlen2⟩ := process_axes_spec t b h hnd hv hlen
  rw [mkFinalAxes_eq_spec] at heq hlen2
  refine ⟨t2, heq, ?_⟩
  rw [hlen2]
  by_cases h1 : "up1" ∈ b ∨ "up2" ∈ b <;>
    by_cases h2 : "down1" ∈ b ∨ "down2" ∈ b <;>
      cases h <;> simp [h1, h2]

/-- Witness for C3 at a concrete valid input. -/
theorem C3_final_axes_witness :
    (["up1", "up2", "down1"] : List String).Nodup ∧
    (∀ x ∈ (["up1", "up2", "down1"] : List String), x ∈ canonLabels) ∧
    (["up1", "up2", "down1"] : List String).length +
      (if true then 1 else 0) = sampleT.shape.length ∧
    (∃ t2, process_axes sampleT ["up1", "up2", "down1"] true = some (t2,
      (if true then ["out"] else []) ++
      (if "up1" ∈ (["up1", "up2", "down1"] : List String) ∨
        "up2" ∈ (["up1", "up2", "down1"] : List String)
        then ["up"] else []) ++
      (if "down1" ∈ (["up1", "up2", "down1"] : List String) ∨
        "down2" ∈ (["up1", "up2", "down1"] : List String)
        then ["down"] else [])) ∧
      t2.shape.length = (if true then 1 else 0) +
        (if "up1" ∈ (["up1", "up2", "down1"] : List String) ∨
          "up2" ∈ (["up1", "up2", "down1"] : List String) then 1 else 0) +
        (if "down1" ∈ (["up1", "up2", "down1"] : List String) ∨
          "down2" ∈ (["up1", "up2", "down1"] : List String)
          then 1 else 0)) :=
  ⟨by decide, by decide, by decide,
    C3_final_axes sampleT ["up1", "up2", "down1"] true (by decide)
      (by decide) (by decide)⟩

/-- C4: on every valid input, `process_axes` preserves the total element
count: the product of the output shape equals the product of the input
shape. -/
theorem C4_element_count {α : Type} [Inhabited α] (t : Tensor α)
    (b : List String) (h : Bool) (hnd : b.Nodup)
    (hv : ∀ x ∈ b, x ∈ canonLabels)
    (hlen : b.length + (if h then 1 else 0) = t.shape.length) :
    ∃ t2 ax, process_axes t b h = some (t2, ax) ∧
      t2.shape.prod = t.shape.prod := by
  obtain ⟨t2, heq, hprod, _⟩ := process_axes_spec t b h hnd hv hlen
  exact ⟨t2, mkFinalAxes b h, heq, hprod⟩

/-- Witness for C4 at a concrete valid input. -/
theorem C4_element_count_witness :
    (["down1", "up1", "down2"] : List String).Nodup ∧
    (∀ x ∈ (["down1", "up1", "down2"] : List String), x ∈ canonLabels) ∧
    (["down1", "up1", "down2"] : List String).length +
      (if false then 1 else 0) =
      (⟨[3, 4, 2], List.range 24⟩ : Tensor Nat).shape.length ∧
    (∃ t2 ax, process_axes (⟨[3, 4, 2], List.range 24⟩ : Tensor Nat)
      ["down1", "up1", "down2"] false = some (t2, ax) ∧
      t2.shape.prod = (⟨[3, 4, 2], List.range 24⟩ : Tensor Nat).shape.prod) :=
  ⟨by decide, by decide, by decide,
    C4_element_count (⟨[3, 4, 2], List.range 24⟩ : Tensor Nat)
      ["down1", "up1", "down2"] false (by decide) (by decide) (by decide)⟩

/-- C5: on every rank-3 tensor, `process_axes` with the already-canonical
labels `['up1','down1']` and `has_out = true` returns the tensor
unchanged in values and shape, with axis names `['out','up','down']`. -/
theorem C5_idempotence {α : Type} [Inhabited α] (t : Tensor α)
    (hsh : t.shape.length = 3) :
    process_axes t ["up1", "down1"] true =
      some (t, ["out", "up", "down"]) := by
  obtain ⟨shape, data⟩ := t
  simp only at hsh
  obtain ⟨a, c, d, rfl⟩ := List.length_eq_three.mp hsh
  have h1 : permutedTensor (⟨[a, c, d], data⟩ : Tensor α)
      ["up1", "down1"] true = some ⟨[a, c, d], data⟩ := rfl
  have h2 : mkNewShape ([a, c, d] : List Nat) ["up1", "down1"] true =
      some [a, c, d] := rfl
  have h3 : npReshape (⟨[a, c, d], data⟩ : Tensor α) [a, c, d] =
      some ⟨[a, c, d], data⟩ := npReshape_of_prod _ _ rfl
  simp [process_axes, h1, h2, h3]
  rfl

/-- Witness for C5 at the concrete tensor `sample3`. -/
theorem C5_idempotence_witness :
    sample3.shape.length = 3 ∧
    process_axes sample3 ["up1", "down1"] true =
      some (sample3, ["out", "up", "down"]) :=
  ⟨rfl, C5_idempotence sample3 rfl⟩

/-- C6: on every well-formed valid input, the variant of `process_axes`
that always applies the step-1 permutation and the variant that skips it
when the target order equals the current order return identical results. -/
theorem C6_skip_equivalence {α : Type} [Inhabited α] (t : Tensor α)
    (b : List String) (h : Bool) (hwf : t.wf) (hnd : b.Nodup)
    (hv : ∀ x ∈ b, x ∈ canonLabels)
    (hlen : b.length + (if h then 1 else 0) = t.shape.length) :
    process_axes_always t b h = process_axes t b h := by
  by_cases heq : mkTargetOrder b h = List.range t.shape.length
  · have h1 : permutedTensor t b h = some t := by
      show (if mkTargetOrder b h ≠ List.range t.shape.length
        then npTranspose t (mkTargetOrder b h) else some t) = some t
      rw [if_neg (not_not_intro heq)]
    have h2 : npTranspose t (mkTargetOrder b h) = some t := by
      rw [heq]
      exact npTranspose_id t hwf
    simp [process_axes, process_axes_always, h1, h2]
  · have h1 : permutedTensor t b h = npTranspose t (mkTargetOrder b h) := by
      show (if mkTargetOrder b h ≠ List.range t.shape.length
        then npTranspose t (mkTargetOrder b h) else some t) = _
      rw [if_pos heq]
    simp [process_axes, process_axes_always, h1]

/-- Witness for C6 at a concrete well-formed valid input. -/
theorem C6_skip_equivalence_witness :
    sample3.wf ∧ (["up1", "down1"] : List String).Nodup ∧
    (∀ x ∈ (["up1", "down1"] : List String), x ∈ canonLabels) ∧
    (["up1", "down1"] : List String).length + (if true then 1 else 0) =
      sample3.shape.length ∧
    process_axes_always sample3 ["up1", "down1"] true =
      process_axes sample3 ["up1", "down1"] true :=
  ⟨by show sample3.data.length = sample3.shape.prod; decide,
    by decide, by decide, by decide,
    C6_skip_equivalence sample3 ["up1", "down1"] true
      (by show sample3.data.length = sample3.shape.prod; decide)
      (by decide) (by decide) (by decide)⟩

/-- C10: on every input satisfying the preconditions, `process_axes`
completes without raising: the constructed target order is a valid
permutation of `range(rank)`, the permute step succeeds, the grouped
shape is built with all shape lookups in bounds and preserves the
element count of the permuted tensor, and the whole call returns a
result. -/
theorem C10_no_failure {α : Type} [Inhabited α] (t : Tensor α)
    (b : List String) (h : Bool) (hnd : b.Nodup)
    (hv : ∀ x ∈ b, x ∈ canonLabels)
    (hlen : b.length + (if h then 1 else 0) = t.shape.length) :
    (mkTargetOrder b h).Perm (List.range t.shape.length) ∧
    (∃ t1, permutedTensor t b h = some t1 ∧
      ∃ ns, mkNewShape t1.shape b h = some ns ∧
        ns.prod = t1.shape.prod) ∧
    (process_axes t b h).isSome = true := by
  have hperm : (mkTargetOrder b h).Perm (List.range t.shape.length) := by
    have hp := mkTargetOrder_perm b h hnd hv
    rwa [hlen] at hp
  obtain ⟨t1, ht1, hsh, hprod, hlen1⟩ := permutedTensor_spec t b h hperm
  have hcnt : t1.shape.length = ((if b.contains "up1" then 1 else 0) +
      (if b.contains "up2" then 1 else 0) +
      (if b.contains "down1" then 1 else 0) +
      (if b.contains "down2" then 1 else 0)) + (if h then 1 else 0) := by
    rw [hlen1, ← hlen]
    have hb : b.length = (canonLabels.filter (fun l => b.contains l)).length :=
      (filter_canon_perm b hnd hv).length_eq.symm
    rw [hb, filter_canon_length]
  obtain ⟨ns, hns, hnsprod, _⟩ := mkNewShape_spec t1.shape b h hcnt
  refine ⟨hperm, ⟨t1, ht1, ns, hns, hnsprod⟩, ?_⟩
  obtain ⟨t2, heq, _, _⟩ := process_axes_spec t b h hnd hv hlen
  rw [heq]
  rfl

/-- Witness for C10 at a concrete valid input. -/
theorem C10_no_failure_witness :
    (["up2", "down2", "up1"] : List String).Nodup ∧
    (∀ x ∈ (["up2", "down2", "up1"] : List String), x ∈ canonLabels) ∧
    (["up2", "down2", "up1"] : List String).length +
      (if true then 1 else 0) =
      (⟨[2, 3, 4, 5], List.range 120⟩ : Tensor Nat).shape.length ∧
    ((mkTargetOrder ["up2", "down2", "up1"] true).Perm
      (List.range (⟨[2, 3, 4, 5], List.range 120⟩ :
        Tensor Nat).shape.length) ∧
    (∃ t1, permutedTensor (⟨[2, 3, 4, 5], List.range 120⟩ : Tensor Nat)
        ["up2", "down2", "up1"] true = some t1 ∧
      ∃ ns, mkNewShape t1.shape ["up2", "down2", "up1"] true = some ns ∧
        ns.prod = t1.shape.prod) ∧
    (process_axes (⟨[2, 3, 4, 5], List.range 120⟩ : Tensor Nat)
      ["up2", "down2", "up1"] true).isSome = true) :=
  ⟨by decide, by decide, by decide,
    C10_no_failure (⟨[2, 3, 4, 5], List.range 120⟩ : Tensor Nat)
      ["up2", "down2", "up1"] true (by decide) (by decide) (by decide)⟩

theorem rebuildCores_spec {γ : Type} (state : List (TNode γ))
    (cores : List (NDArray γ)) (i : Nat)
    (hle : i + cores.length ≤ state.length) :
    ∃ res, rebuildCores state cores i = some res ∧
      res.length = cores.length ∧
      ∀ j, j < cores.length →
        ∃ rn sn, res.get? j = some rn ∧ state.get? (i + j) = some sn ∧
          rn.name = sn.name ∧ rn.axisNames = sn.axisNames := by
  induction cores generalizing i with
  | nil =>
    exact ⟨[], rfl, rfl, fun j hj => absurd hj (by simp)⟩
  | cons core rest ih =>
    have hi : i < state.length := by
      simp only [List.length_cons] at hle
      omega
    have hget : state.get? i = some (state.get ⟨i, hi⟩) :=
      List.get?_eq_get hi
    obtain ⟨tail, htail, htlen, hj⟩ := ih (i + 1) (by
      simp only [List.length_cons] at hle
      omega)
    refine ⟨(⟨core, (state.get ⟨i, hi⟩).name,
      (state.get ⟨i, hi⟩).axisNames⟩ : TNode γ) :: tail, ?_, ?_, ?_⟩
    · show (match state.get? i with
        | none => none
        | some node => (rebuildCores state rest (i + 1)).map
            (fun tl => (⟨core, node.name, node.axisNames⟩ : TNode γ) ::
              tl)) = _
      rw [hget, htail]
      rfl
    · simp [htlen]
    · intro j hjlt
      cases j with
      | zero =>
        exact ⟨_, state.get ⟨i, hi⟩, rfl, by rw [Nat.add_zero]; exact hget,
          rfl, rfl⟩
      | succ j0 =>
        obtain ⟨rn, sn, hrn, hsn, hnm, hax⟩ := hj j0 (by
          simp only [List.length_cons] at hjlt
          omega)
        refine ⟨rn, sn, hrn, ?_, hnm, hax⟩
        rw [show i + (j0 + 1) = i + 1 + j0 by omega]
        exact hsn

/-- C7 (counterexample): with a decomposition routine returning no cores
on a one-node chain, `TT_State_Compression` returns the empty list, so
the output length does not match the input length: the length guarantee
is not independent of what the decomposition service returns. -/
theorem C7_length_counterexample :
    TT_State_Compression emptySvc [sampleNode] 0 = some [] ∧
    ([] : List (TNode Unit)).length ≠ [sampleNode].length :=
  ⟨rfl, by decide⟩

/-- C7 (amended): whenever the decomposition routine returns exactly one
core per input node (its tensor-train contract), `TT_State_Compression`
returns a chain of the same length as the input, and the `i`-th output
node carries the name and axis names of the `i`-th input node. -/
theorem C7_metadata_preserved {γ : Type}
    (svc : List (NDArray γ) → ℚ → List (NDArray γ))
    (state : List (TNode γ)) (eps : ℚ)
    (hlen : (svc (compressionInput state) eps).length = state.length) :
    ∃ res, TT_State_Compression svc state eps = some res ∧
      res.length = state.length ∧
      ∀ j, j < state.length →
        ∃ rn sn, res.get? j = some rn ∧ state.get? j = some sn ∧
          rn.name = sn.name ∧ rn.axisNames = sn.axisNames := by
  obtain ⟨res, hres, hrlen, hj⟩ := rebuildCores_spec state
    (svc (compressionInput state) eps) 0 (by omega)
  refine ⟨res, hres, by rw [hrlen, hlen], ?_⟩
  intro j hjlt
  obtain ⟨rn, sn, hrn, hsn, hnm, hax⟩ := hj j (by omega)
  exact ⟨rn, sn, hrn, by simpa using hsn, hnm, hax⟩

/-- Witness for the amended C7 at a concrete chain and service. -/
theorem C7_metadata_preserved_witness :
    ((fun (l : List (NDArray Unit)) (_ : ℚ) => l)
      (compressionInput [sampleNode]) 0).length = [sampleNode].length ∧
    (∃ res, TT_State_Compression (fun l _ => l) [sampleNode] 0 =
        some res ∧
      res.length = [sampleNode].length ∧
      ∀ j, j < [sampleNode].length →
        ∃ rn sn, res.get? j = some rn ∧ [sampleNode].get? j = some sn ∧
          rn.name = sn.name ∧ rn.axisNames = sn.axisNames) :=
  ⟨rfl, C7_metadata_preserved (fun l _ => l) [sampleNode] 0 rfl⟩

/-- C8: `TT_State_Compression` promotes every input tensor to
double-precision complex before handing the chain to the external
decomposition routine: every array in the handed chain (`compressionInput`)
is tagged complex128, whatever the input dtypes, and the result depends
on the routine only through its value on that promoted chain. -/
theorem C8_dtype_promotion {γ : Type} (state : List (TNode γ)) :
    (∀ a ∈ compressionInput state, a.dtype = Dtype.complex128) ∧
    ∀ (svc1 svc2 : List (NDArray γ) → ℚ → List (NDArray γ)) (eps : ℚ),
      svc1 (compressionInput state) eps =
        svc2 (compressionInput state) eps →
      TT_State_Compression svc1 state eps =
        TT_State_Compression svc2 state eps := by
  constructor
  · intro a ha
    obtain ⟨node, _, rfl⟩ := List.mem_map.mp ha
    rfl
  · intro svc1 svc2 eps hsvc
    unfold TT_State_Compression
    rw [hsvc]

/-- Witness for C8 at a concrete chain, member and pair of services. -/
theorem C8_dtype_promotion_witness :
    (torchTensorComplex128 sampleNode.tensor).dtype = Dtype.complex128 ∧
    TT_State_Compression emptySvc [sampleNode] 0 =
      TT_State_Compression (fun _ _ => []) [sampleNode] 0 :=
  ⟨(C8_dtype_promotion [sampleNode]).1 _ (by simp [compressionInput]),
    (C8_dtype_promotion [sampleNode]).2 emptySvc (fun _ _ => []) 0 rfl⟩

theorem process_axes_at_spec {α : Type} [Inhabited α] (σ : List (Tensor α))
    (i : Nat) (b : List String) (h : Bool) :
    (∃ ext, (process_axes_at σ i b h).1 = σ ++ ext) ∧
    ∀ t, σ.get? i = some t →
      ((process_axes t b h = none → (process_axes_at σ i b h).2 = none) ∧
        ∀ t2 ax, process_axes t b h = some (t2, ax) →
          ∃ k, (process_axes_at σ i b h).2 = some (k, ax) ∧
            (process_axes_at σ i b h).1.get? k = some t2) := by
  cases hg : σ.get? i with
  | none =>
    have hg2 : σ[i]? = none := by
      rw [← List.get?_eq_getElem?]
      exact hg
    have hat : process_axes_at σ i b h = (σ, none) := by
      simp [process_axes_at, hg2]
    refine ⟨⟨[], by rw [hat]; simp⟩, ?_⟩
    intro t ht
    cases ht
  | some t0 =>
    have hgm : σ[i]? = some t0 := by
      rw [← List.get?_eq_getElem?]
      exact hg
    have hax : ∀ t, some t0 = some t → t = t0 := by
      intro t ht
      exact (Option.some.inj ht).symm
    by_cases hc : mkTargetOrder b h = List.range t0.shape.length
    · -- skip path: the target order is already the current order
      have hpt : permutedTensor t0 b h = some t0 := by
        show (if mkTargetOrder b h ≠ List.range t0.shape.length
          then npTranspose t0 (mkTargetOrder b h) else some t0) = some t0
        rw [if_neg (not_not_intro hc)]
      cases hns : mkNewShape t0.shape b h with
      | none =>
        have hpure : process_axes t0 b h = none := by
          simp [process_axes, hpt, hns]
        have hat : process_axes_at σ i b h = (σ, none) := by
          simp [process_axes_at, npTransposeAt, hgm, hc, hns]
        refine ⟨⟨[], by rw [hat]; simp⟩, ?_⟩
        intro t ht
        obtain rfl := hax t ht
        refine ⟨fun _ => by rw [hat], ?_⟩
        intro t2 ax hpa
        rw [hpure] at hpa
        cases hpa
      | some ns =>
        cases hre : npReshape t0 ns with
        | none =>
          have hpure : process_axes t0 b h = none := by
            simp [process_axes, hpt, hns, hre]
          have hat : process_axes_at σ i b h = (σ, none) := by
            simp [process_axes_at, npTransposeAt, npReshapeAt, hgm, hc,
              hns, hre]
          refine ⟨⟨[], by rw [hat]; simp⟩, ?_⟩
          intro t ht
          obtain rfl := hax t ht
          refine ⟨fun _ => by rw [hat], ?_⟩
          intro t2 ax hpa
          rw [hpure] at hpa
          cases hpa
        | some t2 =>
          have hpure : process_axes t0 b h =
              some (t2, mkFinalAxes b h) := by
            simp [process_axes, hpt, hns, hre]
          have hg3 : (σ ++ [t2]).get? σ.length = some t2 :=
            List.get?_concat_length σ t2
          have hat : process_axes_at σ i b h =
              (σ ++ [t2], some (σ.length, mkFinalAxes b h)) := by
            simp [process_axes_at, npTransposeAt, npReshapeAt, hgm, hc,
              hns, hre]
          refine ⟨⟨[t2], by rw [hat]⟩, ?_⟩
          intro t ht
          obtain rfl := hax t ht
          refine ⟨fun hn => (by rw [hpure] at hn; cases hn), ?_⟩
          intro t2' ax' hpa
          rw [hpure] at hpa
          obtain ⟨h1, h2⟩ := Prod.ext_iff.mp (Option.some.inj hpa)
          simp only at h1 h2
          subst h1
          subst h2
          exact ⟨σ.length, by rw [hat], by rw [hat]; exact hg3⟩
    · -- transpose path
      have hpt : permutedTensor t0 b h =
          npTranspose t0 (mkTargetOrder b h) := by
        show (if mkTargetOrder b h ≠ List.range t0.shape.length
          then npTranspose t0 (mkTargetOrder b h) else some t0) = _
        rw [if_pos hc]
      cases htr : npTranspose t0 (mkTargetOrder b h) with
      | none =>
        have hpure : process_axes t0 b h = none := by
          simp [process_axes, hpt, htr]
        have hat : process_axes_at σ i b h = (σ, none) := by
          simp [process_axes_at, npTransposeAt, hgm, hc, htr]
        refine ⟨⟨[], by rw [hat]; simp⟩, ?_⟩
        intro t ht
        obtain rfl := hax t ht
        refine ⟨fun _ => by rw [hat], ?_⟩
        intro t2 ax hpa
        rw [hpure] at hpa
        cases hpa
      | some t1 =>
        have hg2 : (σ ++ [t1]).get? σ.length = some t1 :=
          List.get?_concat_length σ t1
        have hg2m : (σ ++ [t1])[σ.length]? = some t1 := by
          rw [← List.get?_eq_getElem?]
          exact hg2
        cases hns : mkNewShape t1.shape b h with
        | none =>
          have hpure : process_axes t0 b h = none := by
            simp [process_axes, hpt, htr, hns]
          have hat : process_axes_at σ i b h = (σ ++ [t1], none) := by
            simp [process_axes_at, npTransposeAt, hgm, hc, htr, hg2m, hns]
          refine ⟨⟨[t1], by rw [hat]⟩, ?_⟩
          intro t ht
          obtain rfl := hax t ht
          refine ⟨fun _ => by rw [hat], ?_⟩
          intro t2 ax hpa
          rw [hpure] at hpa
          cases hpa
        | some ns =>
          cases hre : npReshape t1 ns with
          | none =>
            have hpure : process_axes t0 b h = none := by
              simp [process_axes, hpt, htr, hns, hre]
            have hat : process_axes_at σ i b h = (σ ++ [t1], none) := by
              simp [process_axes_at, npTransposeAt, npReshapeAt, hgm, hc,
                htr, hg2m, hns, hre]
            refine ⟨⟨[t1], by rw [hat]⟩, ?_⟩
            intro t ht
            obtain rfl := hax t ht
            refine ⟨fun _ => by rw [hat], ?_⟩
            intro t2 ax hpa
            rw [hpure] at hpa
            cases hpa
          | some t2 =>
            have hpure : process_axes t0 b h =
                some (t2, mkFinalAxes b h) := by
              simp [process_axes, hpt, htr, hns, hre]
            have hg3 : ((σ ++ [t1]) ++ [t2]).get? (σ ++ [t1]).length =
                some t2 := List.get?_concat_length _ t2
            have hat : process_axes_at σ i b h = ((σ ++ [t1]) ++ [t2],
                some ((σ ++ [t1]).length, mkFinalAxes b h)) := by
              simp [process_axes_at, npTransposeAt, npReshapeAt, hgm, hc,
                htr, hg2m, hns, hre]
            refine ⟨⟨[t1] ++ [t2], by rw [hat]; simp⟩, ?_⟩
            intro t ht
            obtain rfl := hax t ht
            refine ⟨fun hn => (by rw [hpure] at hn; cases hn), ?_⟩
            intro t2' ax' hpa
            rw [hpure] at hpa
            obtain ⟨h1, h2⟩ := Prod.ext_iff.mp (Option.some.inj hpa)
            simp only at h1 h2
            subst h1
            subst h2
            exact ⟨(σ ++ [t1]).length, by rw [hat],
              by rw [hat]; exact hg3⟩

/-- C9: `process_axes` has no side effects: run at store level on the
array in cell `i`, the call leaves every pre-existing array cell (the
input tensor in particular) unchanged — the label list, a pure value, is
untouched by construction — and its only observable outcome is the
returned tensor and axis-name list, which are exactly the value
`process_axes` deterministically computes from the input value. -/
theorem C9_no_side_effects {α : Type} [Inhabited α] (σ : List (Tensor α))
    (i : Nat) (b : List String) (h : Bool) :
    (∀ j, j < σ.length → (process_axes_at σ i b h).1.get? j = σ.get? j) ∧
    ∀ t, σ.get? i = some t → ∀ t2 ax,
      process_axes t b h = some (t2, ax) →
      ∃ k, (process_axes_at σ i b h).2 = some (k, ax) ∧
        (process_axes_at σ i b h).1.get? k = some t2 := by
  obtain ⟨⟨ext, hext⟩, hres⟩ := process_axes_at_spec σ i b h
  constructor
  · intro j hj
    rw [hext]
    exact List.get?_append hj
  · intro t ht t2 ax hpa
    exact (hres t ht).2 t2 ax hpa

/-- Witness for C9 at a concrete store and input. -/
theorem C9_no_side_effects_witness :
    ((process_axes_at [sample2] 0 ["down1", "up1"] false).1.get? 0 =
      [sample2].get? 0) ∧
    (∃ k, (process_axes_at [sample2] 0 ["down1", "up1"] false).2 =
        some (k, ["up", "down"]) ∧
      (process_axes_at [sample2] 0 ["down1", "up1"] false).1.get? k =
        some ⟨[2, 2], [0, 2, 1, 3]⟩) :=
  ⟨(C9_no_side_effects [sample2] 0 ["down1", "up1"] false).1 0 (by decide),
    (C9_no_side_effects [sample2] 0 ["down1", "up1"] false).2 sample2 rfl
      ⟨[2, 2], [0, 2, 1, 3]⟩ ["up", "down"] (by decide)⟩

end MiniQiskit
